import Mathlib

/-!
Verification of the chunked AEAD streaming engine and the range-decryption
planner of the s3-encryption-gateway repository, as a shallow embedding of
the Go sources in `internal/crypto/` (`chunked.go`, `range_optimization.go`,
base64 helpers).  Byte slices are modelled as `List Nat` with well-formedness
`< 256`; the `cipher.AEAD` interface is modelled as a structure of pure
`Seal` / `Open` functions, exactly as the Go code uses it through the
interface.  The producer/worker/consumer pipeline preserves chunk order by
construction (a FIFO of job handles, the consumer awaits each in turn), so
its observable byte-stream behaviour is the order-preserving functional
composition modelled here.
-/

namespace S3EG


/-- `internal/crypto/chunked.go`: `DefaultChunkSize = 64 * 1024`. -/
def DefaultChunkSize : Nat := 64 * 1024

/-- `internal/crypto/chunked.go`: `MinChunkSize = 16 * 1024`. -/
def MinChunkSize : Nat := 16 * 1024

/-- `internal/crypto/chunked.go`: `MaxChunkSize = 1024 * 1024`. -/
def MaxChunkSize : Nat := 1024 * 1024

/-- Modelled from the spec: the constant `tagSize` is referenced throughout
`chunked.go` and `range_optimization.go` but declared in a crypto source file
absent from `src/`; the spec fixes the tag size of both supported AEADs
(AES-256-GCM and ChaCha20-Poly1305) at 16 bytes. -/
def tagSize : Nat := 16

/-- Model of Go's `cipher.AEAD` interface as used by `chunked.go`:
`Seal(dst, nonce, plaintext, nil)` with an empty `dst` returns
`plaintext` sealed under `nonce`; `Open(dst, nonce, ciphertext, nil)` with an
empty `dst` returns the recovered plaintext, or fails (`none`) when tag
verification fails. -/
structure AEAD where
  Seal : List Nat → List Nat → List Nat
  Open : List Nat → List Nat → Option (List Nat)

/-- The length contract of both supported AEADs: the sealed ciphertext is the
plaintext length plus the 16-byte tag.  Holds for AES-256-GCM and
ChaCha20-Poly1305 (`Overhead() == 16`). -/
def AEAD.SealLen (A : AEAD) : Prop :=
  ∀ nonce p, (A.Seal nonce p).length = p.length + tagSize

/-- The correctness contract of both supported AEADs: opening a sealed
message under the same nonce recovers the plaintext. -/
def AEAD.OpenSeal (A : AEAD) : Prop :=
  ∀ nonce p, A.Open nonce (A.Seal nonce p) = some p

/-! ### Base64 (`encodeBase64` / `decodeBase64`, Go `encoding/base64` StdEncoding) -/

/-- The standard base64 alphabet used by Go's `base64.StdEncoding`. -/
def b64Alphabet : List Char :=
  "ABCDEFGHIJKLMNOPQRSTUVWXYZabcdefghijklmnopqrstuvwxyz0123456789+/".toList

/-- The alphabet character of a 6-bit value. -/
def b64Char (d : Nat) : Char := b64Alphabet.getD d 'A'

/-- The 6-bit value of an alphabet character (`none` for characters outside
the alphabet, such as misplaced padding). -/
def b64Index (c : Char) : Option Nat := List.findIdx? (fun x => x = c) b64Alphabet

/-- Model of `encodeBase64` (Go `base64.StdEncoding.EncodeToString`):
3-byte groups become 4 alphabet characters; a trailing 1- or 2-byte group is
padded with `=`. -/
def encodeBase64 : List Nat → List Char
  | [] => []
  | [a] => [b64Char (a / 4), b64Char (a % 4 * 16), '=', '=']
  | [a, b] => [b64Char (a / 4), b64Char (a % 4 * 16 + b / 16), b64Char (b % 16 * 4), '=']
  | a :: b :: c :: rest =>
      b64Char (a / 4) :: b64Char (a % 4 * 16 + b / 16) ::
      b64Char (b % 16 * 4 + c / 64) :: b64Char (c % 64) :: encodeBase64 rest

/-- Model of `decodeBase64` (Go `base64.StdEncoding.DecodeString`): the input
must be a sequence of 4-character groups; `=` padding is allowed only at the
very end (one or two characters).  Any other character outside the alphabet
is rejected.  Like Go's non-strict decoder, unused trailing bits of a padded
group are ignored. -/
def decodeBase64 : List Char → Except Unit (List Nat)
  | [] => Except.ok []
  | c1 :: c2 :: c3 :: c4 :: rest =>
      if rest = [] ∧ c3 = '=' ∧ c4 = '=' then
        match b64Index c1, b64Index c2 with
        | some d1, some d2 => Except.ok [d1 * 4 + d2 / 16]
        | _, _ => Except.error ()
      else if rest = [] ∧ c4 = '=' then
        match b64Index c1, b64Index c2, b64Index c3 with
        | some d1, some d2, some d3 =>
            Except.ok [d1 * 4 + d2 / 16, d2 % 16 * 16 + d3 / 4]
        | _, _, _ => Except.error ()
      else
        match b64Index c1, b64Index c2, b64Index c3, b64Index c4 with
        | some d1, some d2, some d3, some d4 =>
            match decodeBase64 rest with
            | Except.ok bs =>
                Except.ok ((d1 * 4 + d2 / 16) :: (d2 % 16 * 16 + d3 / 4) ::
                           (d3 % 4 * 64 + d4) :: bs)
            | Except.error e => Except.error e
        | _, _, _, _ => Except.error ()
  | _ => Except.error ()

/-! ### Chunking

`chunkedEncryptReader.feeder` repeatedly fills a `chunkSize` buffer with
`io.ReadFull`: every iteration yields `min chunkSize remaining` bytes; a
short, non-empty final read (EOF/ErrUnexpectedEOF) still becomes a job, and a
zero read ends the loop.  `chunkedDecryptReader.feeder` is identical with
buffer size `chunkSize + tagSize`.  Functionally the source stream is split
into maximal pieces of the buffer size. -/

/-- Split a stream into consecutive pieces of `C` bytes; the final piece may
be shorter but is never empty.  Structural recursion on a fuel argument (the
list length suffices, see `chunksOf_cons_eq`) keeps the function
kernel-computable; the `C = 0` and fuel-exhaustion guards exist only to make
the function total (the Go readers always use a positive size). -/
def chunksOfAux (C : Nat) : Nat → List α → List (List α)
  | _, [] => []
  | 0, _ :: _ => []
  | fuel + 1, x :: xs =>
      if C = 0 then []
      else (x :: xs).take C :: chunksOfAux C fuel ((x :: xs).drop C)

/-- The piece list of a stream: `chunksOfAux` with adequate fuel. -/
def chunksOf (C : Nat) (l : List α) : List (List α) := chunksOfAux C l.length l

/-- The layout invariant of a piece list of width `K`: every piece except
possibly the last has exactly `K` elements, and the last is non-empty with
at most `K`. -/
def ChunkShape (K : Nat) : List (List α) → Prop
  | [] => True
  | [p] => p ≠ [] ∧ p.length ≤ K
  | p :: rest => p.length = K ∧ ChunkShape K rest

/-! ### Per-chunk IV derivation (`deriveChunkIV`) -/

/-- `binary.BigEndian.PutUint32(indexBytes, uint32(chunkIndex))`: the four
big-endian bytes of the chunk index reduced modulo 2^32. -/
def beBytes32 (i : Nat) : List Nat :=
  [i / 2 ^ 24 % 256, i / 2 ^ 16 % 256, i / 2 ^ 8 % 256, i % 256]

/-- `chunkedEncryptReader.deriveChunkIV`: copy the base IV, then for
`i = 0..3` with `i < len(iv)`, XOR byte `len(iv)-1-i` with `indexBytes[3-i]`.
The Go method copies the base IV into a fresh slice, so the base IV itself is
never mutated; the model is a pure function on the copy. -/
def encDeriveChunkIV (baseIV : List Nat) (chunkIndex : Nat) : List Nat :=
  let indexBytes := beBytes32 chunkIndex
  let n := baseIV.length
  (List.range 4).foldl
    (fun iv i =>
      if i < n then
        iv.set (n - 1 - i) (Nat.xor (iv.getD (n - 1 - i) 0) (indexBytes.getD (3 - i) 0))
      else iv)
    baseIV

/-- `chunkedDecryptReader.deriveChunkIV`: textually the same loop as the
encrypt reader's method, translated separately so the two can be compared. -/
def decDeriveChunkIV (baseIV : List Nat) (chunkIndex : Nat) : List Nat :=
  let indexBytes := beBytes32 chunkIndex
  let n := baseIV.length
  (List.range 4).foldl
    (fun iv i =>
      if i < n then
        iv.set (n - 1 - i) (Nat.xor (iv.getD (n - 1 - i) 0) (indexBytes.getD (3 - i) 0))
      else iv)
    baseIV

/-! ### Manifest -/

/-- `ChunkManifest` (`chunked.go`).  `BaseIV` is stored base64-encoded, as in
the Go struct (a `string` field); the optional explicit per-chunk IV list is
never populated by this code path and is omitted. -/
structure ChunkManifest where
  version : Nat
  chunkSize : Nat
  chunkCount : Nat
  baseIV : List Char
deriving Repr, DecidableEq

/-- The clamping performed by `newChunkedEncryptReaderWithContext`:
`chunkSize < MinChunkSize → MinChunkSize`; `chunkSize > MaxChunkSize →
MaxChunkSize` (a non-positive configured size also lands on the minimum, so
the argument is modelled as `Nat`). -/
def clampChunkSize (cs : Nat) : Nat :=
  if cs < MinChunkSize then MinChunkSize
  else if cs > MaxChunkSize then MaxChunkSize
  else cs

/-- The manifest as built by `newChunkedEncryptReaderWithContext`: version 1,
the clamped chunk size, and the base64 of the base IV.  The Go struct
literal omits `ChunkCount`, so it carries the zero value `0`; it is only
incremented later, by `chunkedEncryptReader.Read`, as encrypted chunks are
consumed. -/
def mkEncryptManifest (baseIV : List Nat) (cs : Nat) : ChunkManifest :=
  { version := 1
    chunkSize := clampChunkSize cs
    chunkCount := 0
    baseIV := encodeBase64 baseIV }

/-- The value of `manifest.ChunkCount` after the encrypted stream has been
fully consumed: `chunkedEncryptReader.Read` increments it once per
successful job, and the feeder creates one job per non-empty piece read. -/
def encryptFinalChunkCount (C : Nat) (data : List Nat) : Nat :=
  (chunksOf C data).length

/-! ### Encryption (`chunkedEncryptReader`) -/

/-- `encryptChunkParallel`: empty input returns `nil`; otherwise
`aead.Seal(outBuf, deriveChunkIV(index), plaintext, nil)` with an empty
output buffer. -/
def encryptChunkGo (A : AEAD) (baseIV : List Nat) (index : Nat)
    (plaintext : List Nat) : List Nat :=
  if plaintext = [] then [] else A.Seal (encDeriveChunkIV baseIV index) plaintext

/-- Seal consecutive chunks with consecutive indices starting at `s`.  The
feeder numbers jobs `0, 1, 2, …` and the consumer emits them in that order;
the starting index is a parameter so that suffix streams can be described. -/
def sealChunksFrom (A : AEAD) (baseIV : List Nat) (s : Nat) :
    List (List Nat) → List (List Nat)
  | [] => []
  | ch :: rest => encryptChunkGo A baseIV s ch :: sealChunksFrom A baseIV (s + 1) rest

/-- The full output of `chunkedEncryptReader`: the concatenation, in chunk
index order, of the independently sealed chunks of the plaintext. -/
def encryptStream (A : AEAD) (baseIV : List Nat) (C : Nat)
    (data : List Nat) : List Nat :=
  (sealChunksFrom A baseIV 0 (chunksOf C data)).flatten

/-! ### Decryption (`chunkedDecryptReader`) -/

/-- The terminal errors of the decrypt reader that the claims exercise:
`badBaseIV` models the constructor failing to decode `manifest.BaseIV`;
`chunkOpenFailed i` models the job error
`failed to decrypt chunk i: <AEAD open error>` (the wrapped
`cipher: message authentication failed`). -/
inductive DecryptError where
  | badBaseIV
  | chunkOpenFailed (index : Nat)
deriving Repr, DecidableEq

/-- `decryptChunkParallel`: empty input returns `nil, nil`; otherwise
`aead.Open(outBuf, deriveChunkIV(index), ciphertext, nil)`. -/
def decryptChunkGo (A : AEAD) (baseIV : List Nat) (index : Nat)
    (ciphertext : List Nat) : Option (List Nat) :=
  if ciphertext = [] then some [] else A.Open (decDeriveChunkIV baseIV index) ciphertext

/-- The consumer loop of `chunkedDecryptReader.Read` over the ordered job
queue: plaintexts of successfully opened chunks are emitted in order until
the first failing job, whose error then terminates the stream (the reader
stores it in `r.err`, so every later read returns the same error); no bytes
of the failing chunk are emitted.  `s` is the index given to the first
chunk (the in-src feeder starts at 0). -/
def openChunksFrom (A : AEAD) (baseIV : List Nat) (s : Nat) :
    List (List Nat) → List Nat × Option DecryptError
  | [] => ([], none)
  | c :: rest =>
      match decryptChunkGo A baseIV s c with
      | none => ([], some (DecryptError.chunkOpenFailed s))
      | some p =>
          let r := openChunksFrom A baseIV (s + 1) rest
          (p ++ r.1, r.2)

/-- `newChunkedDecryptReaderWithContext`: decodes `manifest.BaseIV` (failure
is a constructor error) and takes the chunk size from the manifest, without
clamping. -/
def decryptReaderBaseIV (m : ChunkManifest) : Except DecryptError (List Nat) :=
  match decodeBase64 m.baseIV with
  | Except.ok iv => Except.ok iv
  | Except.error _ => Except.error DecryptError.badBaseIV

/-- The full behaviour of `chunkedDecryptReader` on an encrypted stream: the
feeder splits the stream into `manifest.ChunkSize + tagSize` pieces (the
final piece may be short: `ErrUnexpectedEOF` is treated like EOF and the
short piece still becomes a job), each piece is opened with the IV derived
from its index starting at 0, and the emitted bytes and terminal error are
as produced by the consumer loop.  The manifest's `ChunkCount` is never
consulted. -/
def decryptStream (A : AEAD) (m : ChunkManifest) (enc : List Nat) :
    Except DecryptError (List Nat × Option DecryptError) :=
  match decryptReaderBaseIV m with
  | Except.ok iv => Except.ok (openChunksFrom A iv 0 (chunksOf (m.chunkSize + tagSize) enc))
  | Except.error e => Except.error e

/-- Modelled from the spec: the decoder entry point that serves a non-zero
range read takes a `starting_chunk_index` and derives every nonce from the
absolute chunk index.  The engine method implementing it
(`Engine.DecryptRange` and its range reader) is not under `src/`; only its
tests are.  The model runs the in-src feeder/consumer loop with the job
numbering started at `s` instead of 0. -/
def decryptStreamFrom (A : AEAD) (baseIV : List Nat) (C : Nat) (s : Nat)
    (enc : List Nat) : List Nat × Option DecryptError :=
  openChunksFrom A baseIV s (chunksOf (C + tagSize) enc)

/-! ### Range planner (`range_optimization.go`)

Go `int64` / `int` arithmetic is modelled on `Int`; Go's `/` and `%` on
signed integers truncate toward zero, which is `Int.tdiv` / `Int.tmod`
(the `int64 → int` narrowing conversions cannot overflow for the values the
claims quantify over and are dropped). -/

/-- `calculateChunkRangeFromPlaintext`: returns
`(startChunk, endChunk, startOffset, endOffset)`. -/
def calculateChunkRangeFromPlaintext (plaintextStart plaintextEnd : Int)
    (chunkSize totalChunks : Int) : Int × Int × Int × Int :=
  if chunkSize ≤ 0 ∨ totalChunks ≤ 0 then (0, 0, 0, 0)
  else
    let startChunk := Int.tdiv plaintextStart chunkSize
    let endChunk := Int.tdiv plaintextEnd chunkSize
    let startChunk := if startChunk ≥ totalChunks then totalChunks - 1 else startChunk
    let endChunk := if endChunk ≥ totalChunks then totalChunks - 1 else endChunk
    (startChunk, endChunk, Int.tmod plaintextStart chunkSize,
     Int.tmod plaintextEnd chunkSize)

/-- `calculateEncryptedByteRange`: the inclusive encrypted byte range of the
chunk span `[startChunk, endChunk]`. -/
def calculateEncryptedByteRange (startChunk endChunk chunkSize : Int) : Int × Int :=
  if chunkSize ≤ 0 ∨ startChunk < 0 ∨ endChunk < startChunk then (0, 0)
  else
    let encryptedChunkSize := chunkSize + (tagSize : Int)
    (startChunk * encryptedChunkSize, (endChunk + 1) * encryptedChunkSize - 1)

/-- `CalculateEncryptedRangeForPlaintextRange`, after the manifest has been
loaded from metadata (the metadata JSON codec is outside the claims): chunk
span from the plaintext range, then the encrypted byte range of that span. -/
def CalculateEncryptedRangeForPlaintextRange (m : ChunkManifest)
    (plaintextStart plaintextEnd : Int) : Int × Int :=
  let r := calculateChunkRangeFromPlaintext plaintextStart plaintextEnd
    (m.chunkSize : Int) (m.chunkCount : Int)
  calculateEncryptedByteRange r.1 r.2.1 (m.chunkSize : Int)

/-- The invalid-range error of the spec's error taxonomy (`KindInvalidRange`). -/
inductive RangeError where
  | invalidRange
deriving Repr, DecidableEq

/-- Modelled from the spec: the range-planning entry point
(`Engine.DecryptRange`) validates its plaintext range before calling the
planner — negative inputs and `plaintext_start > plaintext_end` fail with
`KindInvalidRange`.  The engine source is not under `src/`; only its tests
and a comment in `fuzz_test.go` (\"DecryptRange validates this before
calling\") witness it. -/
def decryptRangePlan (m : ChunkManifest) (plaintextStart plaintextEnd : Int) :
    Except RangeError (Int × Int) :=
  if plaintextStart < 0 ∨ plaintextEnd < 0 then Except.error RangeError.invalidRange
  else if plaintextStart > plaintextEnd then Except.error RangeError.invalidRange
  else Except.ok (CalculateEncryptedRangeForPlaintextRange m plaintextStart plaintextEnd)

/-! ### HTTP Range header parsing (`ParseHTTPRangeHeader`) -/

/-- The numeric value of a decimal digit character. -/
def digitVal (c : Char) : Nat := c.toNat - 48

/-- Model of `fmt.Sscanf(s, "%d")` on a digit run: the longest prefix of
decimal digits, rejected when empty; characters after the run are ignored,
as `Sscanf` ignores unconsumed input. -/
def scanDigits (l : List Char) : Except Unit Nat :=
  if l.takeWhile (fun c => c.isDigit) = [] then Except.error ()
  else Except.ok
    ((l.takeWhile (fun c => c.isDigit)).foldl (fun a c => a * 10 + digitVal c) 0)

/-- Model of `fmt.Sscanf(s, "%d", &x)` for a signed integer: an optional
sign followed by at least one digit. -/
def goScanInt (l : List Char) : Except Unit Int :=
  match l with
  | '-' :: rest => (scanDigits rest).map (fun n => -(n : Int))
  | '+' :: rest => (scanDigits rest).map (fun n => (n : Int))
  | _ => (scanDigits l).map (fun n => (n : Int))

/-- Model of `strings.Split(s, sep)` for a single-character separator: the
result always has one more element than the number of separators. -/
def splitOnChar (sep : Char) : List Char → List (List Char)
  | [] => [[]]
  | x :: xs =>
      if x = sep then [] :: splitOnChar sep xs
      else
        match splitOnChar sep xs with
        | h :: t => (x :: h) :: t
        | [] => [[x]]

/-- The branch of `ParseHTTPRangeHeader` that computes `(start, end)` from
the range spec (the part after `bytes=`), before the shared validation. -/
def computeHTTPRange (c0 : Char) (restSpec : List Char) (totalSizeHint : Int) :
    Except Unit (Int × Int) :=
  if c0 = '-' then
    if totalSizeHint ≤ 0 then Except.error ()
    else
      match goScanInt restSpec with
      | Except.error e => Except.error e
      | Except.ok suffix =>
          let start := totalSizeHint - suffix
          let start := if start < 0 then 0 else start
          Except.ok (start, totalSizeHint - 1)
  else
    let parts := splitOnChar '-' (c0 :: restSpec)
    if parts.length ≠ 2 then Except.error ()
    else
      match goScanInt (parts.getD 0 []) with
      | Except.error e => Except.error e
      | Except.ok start =>
          if parts.getD 1 [] = [] then
            if totalSizeHint ≤ 0 then Except.error ()
            else Except.ok (start, totalSizeHint - 1)
          else
            match goScanInt (parts.getD 1 []) with
            | Except.error e => Except.error e
            | Except.ok endv => Except.ok (start, endv)

/-- `ParseHTTPRangeHeader(rangeHeader, totalSizeHint)`: checks the `bytes=`
prefix, computes `(start, end)` from the suffix / open-ended / two-sided
form, and validates the result against the size hint when one is known.
(On an empty range spec the Go code indexes `rangeSpec[0]` and panics; the
model returns an error there.) -/
def ParseHTTPRangeHeader (rangeHeader : List Char) (totalSizeHint : Int) :
    Except Unit (Int × Int) :=
  if rangeHeader.length < 6 ∨ rangeHeader.take 6 ≠ "bytes=".toList then Except.error ()
  else
    match rangeHeader.drop 6 with
    | [] => Except.error ()
    | c0 :: restSpec =>
        match computeHTTPRange c0 restSpec totalSizeHint with
        | Except.error e => Except.error e
        | Except.ok (start, endv) =>
            if totalSizeHint > 0 ∧
                (start < 0 ∨ start ≥ totalSizeHint ∨ endv < start ∨ endv ≥ totalSizeHint)
            then Except.error ()
            else Except.ok (start, endv)

/-- Canonical decimal rendering of a natural number, used to build concrete
`Range` headers in the statements. -/
def natDec (n : Nat) : List Char :=
  if n = 0 then ['0']
  else (Nat.digits 10 n).reverse.map (fun d => Char.ofNat (48 + d))

/-! ### A concrete lawful AEAD used by the witnesses -/

/-- A toy authenticated tag: 15 zero bytes and a checksum byte.  It is no
cipher, but it satisfies the two AEAD contracts the theorems assume, and its
tag check genuinely fails on mismatched data, which is all the witnesses
need. -/
def toyTag (nonce p : List Nat) : List Nat :=
  List.replicate 15 0 ++ [(p.sum + nonce.sum) % 256]

/-- A concrete `AEAD` instance satisfying `AEAD.SealLen` and `AEAD.OpenSeal`. -/
def toyAEAD : AEAD where
  Seal nonce p := p ++ toyTag nonce p
  Open nonce c :=
    if c.length < tagSize then none
    else
      let pt := c.take (c.length - tagSize)
      if c.drop (c.length - tagSize) = toyTag nonce pt then some pt else none

/-- A concrete 12-byte base IV for the witnesses. -/
def ivW : List Nat := [0, 1, 2, 3, 4, 5, 6, 7, 8, 9, 10, 11]

/-- The bytes of `"hello world"`, the plaintext of scenario S1. -/
def helloWorldBytes : List Nat :=
  [104, 101, 108, 108, 111, 32, 119, 111, 114, 108, 100]

/-! ## Chunk layout lemmas -/

theorem chunksOfAux_fuel {α : Type _} (C : Nat) (hC : 0 < C) :
    ∀ (f1 : Nat) (l : List α) (f2 : Nat), l.length ≤ f1 → l.length ≤ f2 →
      chunksOfAux C f1 l = chunksOfAux C f2 l := by
  intro f1
  induction f1 with
  | zero =>
      intro l f2 h1 _
      have hl : l = [] := List.eq_nil_of_length_eq_zero (by omega)
      subst hl
      cases f2 <;> rfl
  | succ f ih =>
      intro l f2 h1 h2
      cases l with
      | nil => cases f2 <;> rfl
      | cons x xs =>
          obtain ⟨g, rfl⟩ : ∃ g, f2 = g + 1 := by
            cases f2 with
            | zero => simp at h2
            | succ g => exact ⟨g, rfl⟩
          simp only [chunksOfAux, if_neg (Nat.pos_iff_ne_zero.mp hC)]
          congr 1
          apply ih
          · simp only [List.length_drop, List.length_cons] at h1 ⊢
            omega
          · simp only [List.length_drop, List.length_cons] at h2 ⊢
            omega

theorem chunksOf_cons_eq {α : Type _} (C : Nat) (hC : 0 < C) (l : List α) (hl : l ≠ []) :
    chunksOf C l = l.take C :: chunksOf C (l.drop C) := by
  cases l with
  | nil => cases hl rfl
  | cons x xs =>
      show chunksOfAux C (xs.length + 1) (x :: xs) = _
      simp only [chunksOfAux, if_neg (Nat.pos_iff_ne_zero.mp hC)]
      congr 1
      apply chunksOfAux_fuel C hC
      · simp only [List.length_drop, List.length_cons]
        omega
      · exact Nat.le_refl _

/-- The induction principle of the splitting loop: a property holds of every
stream if it holds of the empty stream and is preserved when a non-empty
stream is extended from its `C`-byte tail. -/
theorem chunksOf_ind {α : Type _} (C : Nat) (hC : 0 < C) (motive : List α → Prop)
    (hnil : motive [])
    (hcons : ∀ x (xs : List α), motive ((x :: xs).drop C) → motive (x :: xs)) :
    ∀ l, motive l := by
  have key : ∀ n (l : List α), l.length = n → motive l := by
    intro n
    induction n using Nat.strong_induction_on with
    | _ n ih =>
        intro l hn
        cases l with
        | nil => exact hnil
        | cons x xs =>
            refine hcons x xs (ih ((x :: xs).drop C).length ?_ _ rfl)
            subst hn
            simp only [List.length_drop, List.length_cons]
            omega
  exact fun l => key l.length l rfl

theorem chunksOf_flatten {α : Type _} (C : Nat) (hC : 0 < C) (l : List α) :
    (chunksOf C l).flatten = l := by
  refine chunksOf_ind C hC (fun l => (chunksOf C l).flatten = l) rfl
    (fun x xs ih => ?_) l
  have ih2 : (chunksOf C ((x :: xs).drop C)).flatten = (x :: xs).drop C := ih
  show (chunksOf C (x :: xs)).flatten = x :: xs
  rw [chunksOf_cons_eq C hC _ (by simp), List.flatten_cons, ih2,
    List.take_append_drop]

theorem chunksOf_length {α : Type _} (C : Nat) (hC : 0 < C) (l : List α) :
    (chunksOf C l).length = (l.length + C - 1) / C := by
  refine chunksOf_ind C hC
    (fun l => (chunksOf C l).length = (l.length + C - 1) / C) ?_
    (fun x xs ih => ?_) l
  · show (0 : Nat) = (0 + C - 1) / C
    rw [Nat.zero_add, Nat.div_eq_of_lt (by omega)]
  · have ih2 : (chunksOf C ((x :: xs).drop C)).length =
        (((x :: xs).drop C).length + C - 1) / C := ih
    show (chunksOf C (x :: xs)).length = ((x :: xs).length + C - 1) / C
    rw [chunksOf_cons_eq C hC _ (by simp), List.length_cons, ih2,
      List.length_drop, List.length_cons]
    rcases Nat.lt_or_ge xs.length C with hlt | hge
    · have h2 : xs.length + 1 - C = 0 := by omega
      have hL : (xs.length + 1 - C + C - 1) / C = 0 := by
        rw [h2]; exact Nat.div_eq_of_lt (by omega)
      have hR : (xs.length + 1 + C - 1) / C = 1 := by
        have e1 : xs.length + 1 + C - 1 = xs.length + C := by omega
        rw [e1, Nat.add_div_right _ hC, Nat.div_eq_of_lt hlt]
      rw [hL, hR]
    · have h1 : xs.length + 1 + C - 1 = (xs.length + 1 - C + C - 1) + C := by omega
      rw [h1, Nat.add_div_right _ hC]

theorem chunksOf_shape {α : Type _} (C : Nat) (hC : 0 < C) (l : List α) :
    ChunkShape C (chunksOf C l) := by
  refine chunksOf_ind C hC (fun l => ChunkShape C (chunksOf C l)) trivial
    (fun x xs ih => ?_) l
  have ih2 : ChunkShape C (chunksOf C ((x :: xs).drop C)) := ih
  show ChunkShape C (chunksOf C (x :: xs))
  rw [chunksOf_cons_eq C hC _ (by simp)]
  rcases Nat.lt_or_ge C (xs.length + 1) with hlt | hge
  · have hdrop : (x :: xs).drop C ≠ [] := by
      simp only [ne_eq, List.drop_eq_nil_iff]
      simp only [List.length_cons]
      omega
    have htake : ((x :: xs).take C).length = C := by
      simp only [List.length_take, List.length_cons]
      omega
    rw [chunksOf_cons_eq C hC _ hdrop] at ih2 ⊢
    exact ⟨htake, ih2⟩
  · have hdrop : (x :: xs).drop C = [] := by
      apply List.drop_eq_nil_of_le
      simpa using hge
    rw [hdrop]
    have hnil : chunksOf C ([] : List α) = [] := rfl
    rw [hnil]
    constructor
    · obtain ⟨c, rfl⟩ : ∃ c, C = c + 1 := ⟨C - 1, by omega⟩
      simp [List.take]
    · simp only [List.length_take, List.length_cons]
      omega

theorem chunkShape_ne_nil {α : Type _} {K : Nat} (hK : 0 < K) :
    ∀ pieces : List (List α), ChunkShape K pieces → ∀ ch ∈ pieces, ch ≠ [] := by
  intro pieces
  induction pieces with
  | nil => intro _ ch hch; simp at hch
  | cons p rest ih =>
      intro hs ch hch
      cases rest with
      | nil =>
          have hp : p ≠ [] ∧ p.length ≤ K := hs
          rcases List.mem_cons.mp hch with rfl | h
          · exact hp.1
          · simp at h
      | cons q t =>
          have hp : p.length = K ∧ ChunkShape K (q :: t) := hs
          rcases List.mem_cons.mp hch with rfl | h
          · intro hnil
            rw [hnil] at hp
            simp at hp
            omega
          · exact ih hp.2 ch h

theorem chunkShape_getD_full {α : Type _} {K : Nat} :
    ∀ pieces : List (List α), ChunkShape K pieces →
      ∀ i, i + 1 < pieces.length → (pieces.getD i []).length = K := by
  intro pieces
  induction pieces with
  | nil => intro _ i hi; simp at hi
  | cons p rest ih =>
      intro hs i hi
      cases rest with
      | nil => simp at hi
      | cons q t =>
          have hp : p.length = K ∧ ChunkShape K (q :: t) := hs
          cases i with
          | zero => simpa using hp.1
          | succ j =>
              rw [List.getD_cons_succ]
              exact ih hp.2 j (by simpa using hi)

theorem chunkShape_getD_last {α : Type _} {K : Nat} :
    ∀ pieces : List (List α), ChunkShape K pieces → pieces ≠ [] →
      1 ≤ (pieces.getD (pieces.length - 1) []).length ∧
        (pieces.getD (pieces.length - 1) []).length ≤ K := by
  intro pieces
  induction pieces with
  | nil => intro _ h; cases h rfl
  | cons p rest ih =>
      intro hs _
      cases rest with
      | nil =>
          have hp : p ≠ [] ∧ p.length ≤ K := hs
          refine ⟨?_, by simpa using hp.2⟩
          simpa using List.length_pos.mpr hp.1
      | cons q t =>
          have hp : p.length = K ∧ ChunkShape K (q :: t) := hs
          have h1 : (p :: q :: t).length - 1 = t.length + 1 := by simp
          rw [h1, List.getD_cons_succ]
          have h2 : (q :: t).length - 1 = t.length := by simp
          have := ih hp.2 (by simp)
          rwa [h2] at this

theorem chunkShape_flatten_length_le {α : Type _} {K : Nat} :
    ∀ pieces : List (List α), ChunkShape K pieces →
      pieces.flatten.length ≤ pieces.length * K := by
  intro pieces
  induction pieces with
  | nil => intro _; simp
  | cons p rest ih =>
      intro hs
      cases rest with
      | nil =>
          have hp : p ≠ [] ∧ p.length ≤ K := hs
          simp only [List.flatten_cons, List.flatten_nil, List.append_nil,
            List.length_cons, List.length_nil]
          omega
      | cons q t =>
          have hp : p.length = K ∧ ChunkShape K (q :: t) := hs
          have := ih hp.2
          simp only [List.flatten_cons, List.length_append, List.length_cons] at this ⊢
          have hpK : p.length = K := hp.1
          nlinarith [this]

theorem chunksOf_flatten_of_shape {α : Type _} (K : Nat) (hK : 0 < K) :
    ∀ pieces : List (List α), ChunkShape K pieces →
      chunksOf K pieces.flatten = pieces := by
  intro pieces
  induction pieces with
  | nil => intro _; rfl
  | cons p rest ih =>
      intro hs
      cases rest with
      | nil =>
          have hp : p ≠ [] ∧ p.length ≤ K := hs
          simp only [List.flatten_cons, List.flatten_nil, List.append_nil]
          rw [chunksOf_cons_eq K hK p hp.1, List.take_of_length_le hp.2,
            List.drop_eq_nil_of_le hp.2]
          rfl
      | cons q t =>
          have hp : p.length = K ∧ ChunkShape K (q :: t) := hs
          have hpne : p ≠ [] := by
            intro h
            rw [h] at hp
            simp at hp
            omega
          have happ : p ++ (q :: t).flatten ≠ [] := by
            intro h
            exact hpne (List.append_eq_nil.mp h).1
          rw [List.flatten_cons, chunksOf_cons_eq K hK _ happ,
            List.take_left' hp.1, List.drop_left' hp.1, ih hp.2]

theorem chunkShape_flatten_drop {α : Type _} {K : Nat} :
    ∀ pieces : List (List α), ChunkShape K pieces →
      ∀ i, i ≤ pieces.length →
        pieces.flatten.drop (i * K) = (pieces.drop i).flatten := by
  intro pieces
  induction pieces with
  | nil =>
      intro _ i hi
      simp only [List.length_nil, Nat.le_zero] at hi
      subst hi
      simp
  | cons p rest ih =>
      intro hs i hi
      cases i with
      | zero => simp
      | succ j =>
          cases rest with
          | nil =>
              have hp : p ≠ [] ∧ p.length ≤ K := hs
              have hj : j = 0 := by simp at hi; omega
              subst hj
              simp only [List.flatten_cons, List.flatten_nil, List.append_nil,
                List.drop_succ_cons, List.drop_nil]
              have e : (0 + 1) * K = K := by ring
              rw [e]
              exact List.drop_eq_nil_of_le hp.2
          | cons q t =>
              have hp : p.length = K ∧ ChunkShape K (q :: t) := hs
              have h1 : (j + 1) * K = p.length + j * K := by rw [hp.1]; ring
              rw [List.flatten_cons, h1, ← List.drop_drop,
                List.drop_left, List.drop_succ_cons]
              exact ih hp.2 j (by simpa using hi)

theorem chunkShape_flatten_take {α : Type _} {K : Nat} :
    ∀ pieces : List (List α), ChunkShape K pieces →
      ∀ i, i < pieces.length →
        pieces.flatten.take (i * K) = (pieces.take i).flatten := by
  intro pieces
  induction pieces with
  | nil => intro _ i hi; simp at hi
  | cons p rest ih =>
      intro hs i hi
      cases i with
      | zero => simp
      | succ j =>
          cases rest with
          | nil => simp at hi
          | cons q t =>
              have hp : p.length = K ∧ ChunkShape K (q :: t) := hs
              have h1 : (j + 1) * K = p.length + j * K := by rw [hp.1]; ring
              have hih := ih hp.2 j (by simpa using hi)
              rw [List.flatten_cons, h1, List.take_append, hih,
                List.take_succ_cons, List.flatten_cons]

/-! ## Sealing and opening lemmas -/

/-- The two readers' IV derivations are syntactically the same computation. -/
theorem decDeriveChunkIV_eq_enc : @decDeriveChunkIV = @encDeriveChunkIV := rfl

theorem encryptChunkGo_length (A : AEAD) (hS : A.SealLen) (iv : List Nat)
    (k : Nat) (ch : List Nat) (hch : ch ≠ []) :
    (encryptChunkGo A iv k ch).length = ch.length + tagSize := by
  rw [encryptChunkGo, if_neg hch]
  exact hS _ ch

theorem sealChunksFrom_length (A : AEAD) (iv : List Nat) :
    ∀ (s : Nat) (pieces : List (List Nat)),
      (sealChunksFrom A iv s pieces).length = pieces.length := by
  intro s pieces
  induction pieces generalizing s with
  | nil => simp [sealChunksFrom]
  | cons p rest ih => simp [sealChunksFrom, ih]

theorem sealChunksFrom_getD (A : AEAD) (iv : List Nat) :
    ∀ (s : Nat) (pieces : List (List Nat)) (i : Nat), i < pieces.length →
      (sealChunksFrom A iv s pieces).getD i [] =
        encryptChunkGo A iv (s + i) (pieces.getD i []) := by
  intro s pieces
  induction pieces generalizing s with
  | nil => intro i hi; simp at hi
  | cons p rest ih =>
      intro i hi
      cases i with
      | zero => simp [sealChunksFrom]
      | succ j =>
          rw [sealChunksFrom, List.getD_cons_succ, List.getD_cons_succ,
            ih (s + 1) j (by simpa using hi)]
          congr 1
          omega

theorem sealChunksFrom_drop (A : AEAD) (iv : List Nat) :
    ∀ (s i : Nat) (pieces : List (List Nat)),
      (sealChunksFrom A iv s pieces).drop i =
        sealChunksFrom A iv (s + i) (pieces.drop i) := by
  intro s i pieces
  induction pieces generalizing s i with
  | nil => simp [sealChunksFrom]
  | cons p rest ih =>
      cases i with
      | zero => simp [sealChunksFrom]
      | succ j =>
          rw [sealChunksFrom, List.drop_succ_cons, List.drop_succ_cons, ih (s + 1) j]
          congr 1
          omega

theorem sealChunksFrom_shape (A : AEAD) (hS : A.SealLen) (iv : List Nat)
    (K : Nat) (hK : 0 < K) :
    ∀ (s : Nat) (pieces : List (List Nat)), ChunkShape K pieces →
      ChunkShape (K + tagSize) (sealChunksFrom A iv s pieces) := by
  intro s pieces
  induction pieces generalizing s with
  | nil => intro _; simp [sealChunksFrom, ChunkShape]
  | cons p rest ih =>
      intro hs
      cases rest with
      | nil =>
          have hp : p ≠ [] ∧ p.length ≤ K := hs
          have hlen := encryptChunkGo_length A hS iv s p hp.1
          rw [sealChunksFrom, sealChunksFrom]
          refine ⟨?_, ?_⟩
          · apply List.ne_nil_of_length_pos
            rw [hlen, tagSize]
            omega
          · rw [hlen]
            omega
      | cons q t =>
          have hp : p.length = K ∧ ChunkShape K (q :: t) := hs
          have hpne : p ≠ [] := by
            intro h
            rw [h] at hp
            simp at hp
            omega
          have hlen := encryptChunkGo_length A hS iv s p hpne
          have hrest := ih (s + 1) hp.2
          rw [sealChunksFrom]
          rw [sealChunksFrom] at hrest ⊢
          exact ⟨by rw [hlen, hp.1], hrest⟩

theorem openChunksFrom_seal (A : AEAD) (hS : A.SealLen) (hO : A.OpenSeal)
    (iv : List Nat) :
    ∀ (s : Nat) (pieces : List (List Nat)), (∀ ch ∈ pieces, ch ≠ []) →
      openChunksFrom A iv s (sealChunksFrom A iv s pieces) =
        (pieces.flatten, none) := by
  intro s pieces
  induction pieces generalizing s with
  | nil => simp [sealChunksFrom, openChunksFrom]
  | cons p rest ih =>
      intro hne
      have hp : p ≠ [] := hne p (by simp)
      rw [sealChunksFrom, openChunksFrom]
      have hseal : encryptChunkGo A iv s p = A.Seal (encDeriveChunkIV iv s) p := by
        rw [encryptChunkGo, if_neg hp]
      have hsne : encryptChunkGo A iv s p ≠ [] := by
        apply List.ne_nil_of_length_pos
        rw [encryptChunkGo_length A hS iv s p hp, tagSize]
        omega
      have hopen : decryptChunkGo A iv s (encryptChunkGo A iv s p) = some p := by
        rw [decryptChunkGo, if_neg hsne, hseal]
        rw [show decDeriveChunkIV iv s = encDeriveChunkIV iv s from rfl]
        exact hO _ p
      rw [hopen]
      simp only [List.flatten_cons]
      rw [ih (s + 1) (fun ch hch => hne ch (by simp [hch]))]


/-! ## Base64 round trip -/

set_option maxRecDepth 4000 in
theorem b64Index_b64Char : ∀ d, d < 64 → b64Index (b64Char d) = some d := by decide

set_option maxRecDepth 4000 in
theorem b64Char_ne_pad : ∀ d, d < 64 → b64Char d ≠ '=' := by decide

theorem mulAddDivCancel (x y K : Nat) (hy : y < K) (hK : 0 < K) :
    (x * K + y) / K = x := by
  rw [Nat.mul_comm x K, Nat.mul_add_div hK, Nat.div_eq_of_lt hy, Nat.add_zero]

theorem mulAddModCancel (x y K : Nat) (hy : y < K) :
    (x * K + y) % K = y := by
  rw [Nat.mul_comm x K, Nat.mul_add_mod, Nat.mod_eq_of_lt hy]

theorem decodeBase64_encodeBase64 :
    ∀ bs : List Nat, (∀ x ∈ bs, x < 256) →
      decodeBase64 (encodeBase64 bs) = Except.ok bs := by
  intro bs
  induction bs using encodeBase64.induct with
  | case1 => intro _; rfl
  | case2 a =>
      intro hb
      have ha : a < 256 := hb a (by simp)
      have hI1 := b64Index_b64Char (a / 4) (by omega)
      have hI2 := b64Index_b64Char (a % 4 * 16) (by omega)
      rw [encodeBase64, decodeBase64, if_pos ⟨rfl, rfl, rfl⟩, hI1, hI2]
      have e : a / 4 * 4 + a % 4 * 16 / 16 = a := by
        rw [Nat.mul_div_cancel _ (by norm_num : (0 : Nat) < 16)]
        omega
      simp only [e]
  | case3 a b =>
      intro hb
      have ha : a < 256 := hb a (by simp)
      have hbb : b < 256 := hb b (by simp)
      have hI1 := b64Index_b64Char (a / 4) (by omega)
      have hI2 := b64Index_b64Char (a % 4 * 16 + b / 16) (by omega)
      have hI3 := b64Index_b64Char (b % 16 * 4) (by omega)
      have hne3 := b64Char_ne_pad (b % 16 * 4) (by omega)
      rw [encodeBase64, decodeBase64, if_neg (fun h => hne3 h.2.1),
        if_pos ⟨rfl, rfl⟩, hI1, hI2, hI3]
      have e1 : a / 4 * 4 + (a % 4 * 16 + b / 16) / 16 = a := by
        rw [mulAddDivCancel (a % 4) (b / 16) 16 (by omega) (by norm_num)]
        omega
      have e2 : (a % 4 * 16 + b / 16) % 16 * 16 + b % 16 * 4 / 4 = b := by
        rw [mulAddModCancel (a % 4) (b / 16) 16 (by omega),
          Nat.mul_div_cancel _ (by norm_num : (0 : Nat) < 4)]
        omega
      simp only [e1, e2]
  | case4 a b c rest ih =>
      intro hb
      have ha : a < 256 := hb a (by simp)
      have hbb : b < 256 := hb b (by simp)
      have hc : c < 256 := hb c (by simp)
      have hI1 := b64Index_b64Char (a / 4) (by omega)
      have hI2 := b64Index_b64Char (a % 4 * 16 + b / 16) (by omega)
      have hI3 := b64Index_b64Char (b % 16 * 4 + c / 64) (by omega)
      have hI4 := b64Index_b64Char (c % 64) (by omega)
      have hne4 := b64Char_ne_pad (c % 64) (by omega)
      have hih := ih (fun x hx => hb x (by simp [hx]))
      rw [encodeBase64, decodeBase64, if_neg (fun h => hne4 h.2.2),
        if_neg (fun h => hne4 h.2), hI1, hI2, hI3, hI4, hih]
      have e1 : a / 4 * 4 + (a % 4 * 16 + b / 16) / 16 = a := by
        rw [mulAddDivCancel (a % 4) (b / 16) 16 (by omega) (by norm_num)]
        omega
      have e2 : (a % 4 * 16 + b / 16) % 16 * 16 + (b % 16 * 4 + c / 64) / 4 = b := by
        rw [mulAddModCancel (a % 4) (b / 16) 16 (by omega),
          mulAddDivCancel (b % 16) (c / 64) 4 (by omega) (by norm_num)]
        omega
      have e3 : (b % 16 * 4 + c / 64) % 4 * 64 + c % 64 = c := by
        rw [mulAddModCancel (b % 16) (c / 64) 4 (by omega)]
        omega
      simp only [e1, e2, e3]

/-! ## Lawfulness of the witness AEAD, clamping -/

theorem toyAEAD_sealLen : toyAEAD.SealLen := by
  intro nonce p
  simp [toyAEAD, toyTag, tagSize]

theorem toyAEAD_openSeal : toyAEAD.OpenSeal := by
  intro nonce p
  have hlen : (p ++ toyTag nonce p).length = p.length + tagSize := by
    simp [toyTag, tagSize]
  have hsub : (p ++ toyTag nonce p).length - tagSize = p.length := by omega
  simp only [toyAEAD]
  rw [if_neg (by omega), hsub, List.take_left, List.drop_left, if_pos rfl]

theorem clampChunkSize_pos (cs : Nat) : 0 < clampChunkSize cs := by
  simp only [clampChunkSize, MinChunkSize, MaxChunkSize]
  split_ifs <;> omega

theorem clampChunkSize_bounds (cs : Nat) :
    MinChunkSize ≤ clampChunkSize cs ∧ clampChunkSize cs ≤ MaxChunkSize := by
  simp only [clampChunkSize, MinChunkSize, MaxChunkSize]
  split_ifs <;> omega

theorem sealChunksFrom_flatten_length (A : AEAD) (hS : A.SealLen) (iv : List Nat) :
    ∀ (s : Nat) (pieces : List (List Nat)), (∀ ch ∈ pieces, ch ≠ []) →
      (sealChunksFrom A iv s pieces).flatten.length =
        pieces.flatten.length + tagSize * pieces.length := by
  intro s pieces
  induction pieces generalizing s with
  | nil => intro _; simp [sealChunksFrom]
  | cons p rest ih =>
      intro hne
      have hp : p ≠ [] := hne p (by simp)
      have hlen := encryptChunkGo_length A hS iv s p hp
      rw [sealChunksFrom, List.flatten_cons, List.flatten_cons, List.length_append,
        List.length_append, hlen, ih (s + 1) (fun ch hch => hne ch (by simp [hch])),
        List.length_cons]
      ring

/-! ## Claim theorems -/

/-- C1.  Round-trip: for every non-empty plaintext, every AEAD instance
satisfying the seal-length and open-seal contracts (both supported AEADs,
AES-256-GCM and ChaCha20-Poly1305, with any fixed key), every 12-byte
well-formed base IV, and every configured chunk size (the encoder accepts any
and clamps it), fully reading the chunked decrypt reader over the full
output of the chunked encrypt reader - with the manifest the encoder emitted
(same recorded base IV, same chunk size) - yields exactly the plaintext and
no error. -/
theorem c1_round_trip (A : AEAD) (hSeal : A.SealLen) (hOpen : A.OpenSeal)
    (baseIV : List Nat) (hiv12 : baseIV.length = 12) (hivb : ∀ x ∈ baseIV, x < 256)
    (cs : Nat) (P : List Nat) (hP : P ≠ []) :
    decryptStream A
      { mkEncryptManifest baseIV cs with
          chunkCount := encryptFinalChunkCount (clampChunkSize cs) P }
      (encryptStream A baseIV (clampChunkSize cs) P) = Except.ok (P, none) := by
  have hC : 0 < clampChunkSize cs := clampChunkSize_pos cs
  have hdec : decryptReaderBaseIV
      { mkEncryptManifest baseIV cs with
          chunkCount := encryptFinalChunkCount (clampChunkSize cs) P } =
      Except.ok baseIV := by
    rw [decryptReaderBaseIV]
    have : ({ mkEncryptManifest baseIV cs with
        chunkCount := encryptFinalChunkCount (clampChunkSize cs) P }).baseIV =
        encodeBase64 baseIV := rfl
    rw [this, decodeBase64_encodeBase64 baseIV hivb]
  rw [decryptStream, hdec]
  have hcsz : ({ mkEncryptManifest baseIV cs with
      chunkCount := encryptFinalChunkCount (clampChunkSize cs) P }).chunkSize =
      clampChunkSize cs := rfl
  rw [hcsz]
  have hshape := sealChunksFrom_shape A hSeal baseIV (clampChunkSize cs) hC 0
    (chunksOf (clampChunkSize cs) P) (chunksOf_shape _ hC P)
  rw [encryptStream, chunksOf_flatten_of_shape (clampChunkSize cs + tagSize)
    (by simp [tagSize]) _ hshape]
  show Except.ok
      (openChunksFrom A baseIV 0 (sealChunksFrom A baseIV 0
        (chunksOf (clampChunkSize cs) P))) = Except.ok (P, none)
  rw [openChunksFrom_seal A hSeal hOpen baseIV 0 _
    (chunkShape_ne_nil hC _ (chunksOf_shape _ hC P))]
  rw [chunksOf_flatten _ hC P]

/-- Witness for C1 at the toy AEAD, the sample IV, configured chunk size 0
(clamped to `MinChunkSize`), and plaintext `[1, 2, 3]`. -/
theorem c1_round_trip_witness :
    toyAEAD.SealLen ∧ toyAEAD.OpenSeal ∧ ivW.length = 12 ∧
      (∀ x ∈ ivW, x < 256) ∧ ([1, 2, 3] : List Nat) ≠ [] ∧
      decryptStream toyAEAD
        { mkEncryptManifest ivW 0 with
            chunkCount := encryptFinalChunkCount (clampChunkSize 0) [1, 2, 3] }
        (encryptStream toyAEAD ivW (clampChunkSize 0) [1, 2, 3]) =
        Except.ok ([1, 2, 3], none) :=
  ⟨toyAEAD_sealLen, toyAEAD_openSeal, by decide, by decide, by decide,
    c1_round_trip toyAEAD toyAEAD_sealLen toyAEAD_openSeal ivW (by decide)
      (by decide) 0 [1, 2, 3] (by decide)⟩


theorem chunksOf_ne_nil {α : Type _} (C : Nat) (hC : 0 < C) (l : List α)
    (hl : l ≠ []) : chunksOf C l ≠ [] := by
  rw [chunksOf_cons_eq C hC l hl]
  simp

theorem chunkShape_getD_pos {α : Type _} {K : Nat} (hK : 0 < K)
    (pieces : List (List α)) (hs : ChunkShape K pieces) (i : Nat)
    (hi : i < pieces.length) : 0 < (pieces.getD i []).length := by
  rcases Nat.lt_or_ge (i + 1) pieces.length with h | h
  · rw [chunkShape_getD_full pieces hs i h]
    exact hK
  · have hlast : i = pieces.length - 1 := by omega
    rw [hlast]
    exact (chunkShape_getD_last pieces hs
      (List.ne_nil_of_length_pos (by omega))).1

/-- C2.  Encrypted layout: the encrypted stream is the concatenation, in
ascending chunk index order, of `ceil(L/C)` independently sealed chunks;
every chunk except possibly the last covers exactly `C` plaintext bytes and
the last covers between 1 and `C`; each encrypted chunk is its plaintext
length plus 16 bytes; chunk `i` begins at encrypted-stream offset
`i*(C+16)`; and the total encrypted length is `L + 16*ceil(L/C)`. -/
theorem c2_encrypted_layout (A : AEAD) (hSeal : A.SealLen) (iv : List Nat)
    (C : Nat) (hCb : MinChunkSize ≤ C ∧ C ≤ MaxChunkSize)
    (P : List Nat) (hP : P ≠ []) :
    ((chunksOf C P).length = (P.length + C - 1) / C) ∧
    (encryptStream A iv C P = (sealChunksFrom A iv 0 (chunksOf C P)).flatten) ∧
    (∀ i, i + 1 < (chunksOf C P).length → ((chunksOf C P).getD i []).length = C) ∧
    (1 ≤ ((chunksOf C P).getD ((chunksOf C P).length - 1) []).length ∧
      ((chunksOf C P).getD ((chunksOf C P).length - 1) []).length ≤ C) ∧
    (∀ i, i < (chunksOf C P).length →
      ((sealChunksFrom A iv 0 (chunksOf C P)).getD i []).length =
        ((chunksOf C P).getD i []).length + tagSize) ∧
    (∀ i, i < (chunksOf C P).length →
      ((encryptStream A iv C P).drop (i * (C + tagSize))).take
          (((chunksOf C P).getD i []).length + tagSize) =
        (sealChunksFrom A iv 0 (chunksOf C P)).getD i []) ∧
    ((encryptStream A iv C P).length = P.length + tagSize * ((P.length + C - 1) / C)) := by
  have hC : 0 < C := by
    have := hCb.1
    simp only [MinChunkSize] at this
    omega
  have hsh := chunksOf_shape C hC P
  have hne := chunkShape_ne_nil hC _ hsh
  have hpne := chunksOf_ne_nil C hC P hP
  have hssh := sealChunksFrom_shape A hSeal iv C hC 0 _ hsh
  have hslen := sealChunksFrom_length A iv 0 (chunksOf C P)
  refine ⟨chunksOf_length C hC P, rfl, fun i hi => chunkShape_getD_full _ hsh i hi,
    chunkShape_getD_last _ hsh hpne, ?_, ?_, ?_⟩
  · intro i hi
    rw [sealChunksFrom_getD A iv 0 _ i hi, Nat.zero_add]
    exact encryptChunkGo_length A hSeal iv i _
      (List.ne_nil_of_length_pos (chunkShape_getD_pos hC _ hsh i hi))
  · intro i hi
    have hi' : i < (sealChunksFrom A iv 0 (chunksOf C P)).length := by
      rw [hslen]; exact hi
    have hdrop := chunkShape_flatten_drop _ hssh i (Nat.le_of_lt hi')
    rw [encryptStream, hdrop, List.drop_eq_getElem_cons hi', List.flatten_cons]
    have hlen : ((sealChunksFrom A iv 0 (chunksOf C P)).getD i []).length =
        ((chunksOf C P).getD i []).length + tagSize := by
      rw [sealChunksFrom_getD A iv 0 _ i hi, Nat.zero_add]
      exact encryptChunkGo_length A hSeal iv i _
        (List.ne_nil_of_length_pos (chunkShape_getD_pos hC _ hsh i hi))
    rw [List.getD_eq_getElem _ _ hi'] at hlen
    rw [List.take_left' hlen, List.getD_eq_getElem _ _ hi']
  · rw [encryptStream, sealChunksFrom_flatten_length A hSeal iv 0 _ hne,
      chunksOf_flatten C hC P, chunksOf_length C hC P]

/-- Witness for C2 at the toy AEAD, the sample IV, chunk size
`MinChunkSize`, and plaintext `[1, 2, 3]`. -/
theorem c2_encrypted_layout_witness :
    toyAEAD.SealLen ∧
      (MinChunkSize ≤ MinChunkSize ∧ MinChunkSize ≤ MaxChunkSize) ∧
      ([1, 2, 3] : List Nat) ≠ [] ∧
      ((chunksOf MinChunkSize [1, 2, 3]).length =
        (([1, 2, 3] : List Nat).length + MinChunkSize - 1) / MinChunkSize) ∧
      (encryptStream toyAEAD ivW MinChunkSize [1, 2, 3] =
        (sealChunksFrom toyAEAD ivW 0 (chunksOf MinChunkSize [1, 2, 3])).flatten) ∧
      ((encryptStream toyAEAD ivW MinChunkSize [1, 2, 3]).length =
        ([1, 2, 3] : List Nat).length +
          tagSize * ((([1, 2, 3] : List Nat).length + MinChunkSize - 1) / MinChunkSize)) := by
  have h := c2_encrypted_layout toyAEAD toyAEAD_sealLen ivW MinChunkSize
    (by constructor <;> (simp only [MinChunkSize, MaxChunkSize]; omega)) [1, 2, 3]
    (by decide)
  exact ⟨toyAEAD_sealLen, ⟨Nat.le_refl _, by simp only [MinChunkSize, MaxChunkSize]; omega⟩,
    by decide, h.1, h.2.1, h.2.2.2.2.2.2⟩


/-! ## Nonce derivation lemmas -/

theorem xorLeftCancel (a b c : Nat) (h : Nat.xor a b = Nat.xor a c) : b = c := by
  have h2 : a ^^^ (a ^^^ b) = a ^^^ (a ^^^ c) := congrArg (fun z => a ^^^ z) h
  rwa [← Nat.xor_assoc, ← Nat.xor_assoc, Nat.xor_self, Nat.zero_xor,
    Nat.zero_xor] at h2

theorem exists_twelve {α : Type _} (l : List α) (h : l.length = 12) :
    ∃ v0 v1 v2 v3 v4 v5 v6 v7 v8 v9 v10 v11,
      l = [v0, v1, v2, v3, v4, v5, v6, v7, v8, v9, v10, v11] := by
  rcases l with _ | ⟨v0, l⟩; · simp at h
  rcases l with _ | ⟨v1, l⟩; · simp at h
  rcases l with _ | ⟨v2, l⟩; · simp at h
  rcases l with _ | ⟨v3, l⟩; · simp at h
  rcases l with _ | ⟨v4, l⟩; · simp at h
  rcases l with _ | ⟨v5, l⟩; · simp at h
  rcases l with _ | ⟨v6, l⟩; · simp at h
  rcases l with _ | ⟨v7, l⟩; · simp at h
  rcases l with _ | ⟨v8, l⟩; · simp at h
  rcases l with _ | ⟨v9, l⟩; · simp at h
  rcases l with _ | ⟨v10, l⟩; · simp at h
  rcases l with _ | ⟨v11, l⟩; · simp at h
  rcases l with _ | ⟨v12, l⟩
  · exact ⟨v0, v1, v2, v3, v4, v5, v6, v7, v8, v9, v10, v11, rfl⟩
  · simp only [List.length_cons] at h
    omega

theorem encDeriveChunkIV_twelve
    (v0 v1 v2 v3 v4 v5 v6 v7 v8 v9 v10 v11 i : Nat) :
    encDeriveChunkIV [v0, v1, v2, v3, v4, v5, v6, v7, v8, v9, v10, v11] i =
      [v0, v1, v2, v3, v4, v5, v6, v7,
       Nat.xor v8 (i / 2 ^ 24 % 256), Nat.xor v9 (i / 2 ^ 16 % 256),
       Nat.xor v10 (i / 2 ^ 8 % 256), Nat.xor v11 (i % 256)] := rfl

/-- C3.  Nonce derivation: for a 12-byte base IV the derived IV is the base
IV with its last 4 bytes XORed with the big-endian 4-byte encoding of the
chunk index (the first 8 bytes unchanged; the Go method works on a fresh
copy, the model is pure, so the base IV is never mutated); the encrypt and
decrypt readers derive with the same function; and distinct indices below
2^32 derive distinct IVs. -/
theorem c3_nonce_derivation (baseIV : List Nat) (h12 : baseIV.length = 12)
    (i j : Nat) (hi : i < 2 ^ 32) (hj : j < 2 ^ 32) (hij : i ≠ j) :
    (encDeriveChunkIV baseIV i =
      baseIV.take 8 ++ List.zipWith Nat.xor (baseIV.drop 8) (beBytes32 i)) ∧
    (decDeriveChunkIV baseIV i = encDeriveChunkIV baseIV i) ∧
    (encDeriveChunkIV baseIV i ≠ encDeriveChunkIV baseIV j) := by
  obtain ⟨v0, v1, v2, v3, v4, v5, v6, v7, v8, v9, v10, v11, rfl⟩ :=
    exists_twelve baseIV h12
  refine ⟨by rw [encDeriveChunkIV_twelve]; rfl, rfl, ?_⟩
  rw [encDeriveChunkIV_twelve, encDeriveChunkIV_twelve]
  intro h
  simp only [List.cons.injEq, and_true] at h
  have e1 := xorLeftCancel _ _ _ h.2.2.2.2.2.2.2.2.1
  have e2 := xorLeftCancel _ _ _ h.2.2.2.2.2.2.2.2.2.1
  have e3 := xorLeftCancel _ _ _ h.2.2.2.2.2.2.2.2.2.2.1
  have e4 := xorLeftCancel _ _ _ h.2.2.2.2.2.2.2.2.2.2.2
  omega

/-- Witness for C3 at the sample IV and indices 0 and 1. -/
theorem c3_nonce_derivation_witness :
    ivW.length = 12 ∧ (0 : Nat) < 2 ^ 32 ∧ (1 : Nat) < 2 ^ 32 ∧ (0 : Nat) ≠ 1 ∧
      (encDeriveChunkIV ivW 0 =
        ivW.take 8 ++ List.zipWith Nat.xor (ivW.drop 8) (beBytes32 0)) ∧
      (decDeriveChunkIV ivW 0 = encDeriveChunkIV ivW 0) ∧
      (encDeriveChunkIV ivW 0 ≠ encDeriveChunkIV ivW 1) := by
  have h := c3_nonce_derivation ivW (by decide) 0 1 (by norm_num) (by norm_num)
    (by decide)
  exact ⟨by decide, by norm_num, by norm_num, by decide, h.1, h.2.1, h.2.2⟩


/-! ## Decrypt failure behaviour -/

theorem openChunksFrom_first_fail (A : AEAD) (iv : List Nat) :
    ∀ (s : Nat) (pieces : List (List Nat)) (i : Nat), i < pieces.length →
      decryptChunkGo A iv (s + i) (pieces.getD i []) = none →
      (∀ j, j < i → decryptChunkGo A iv (s + j) (pieces.getD j []) ≠ none) →
      openChunksFrom A iv s pieces =
        (((List.range i).map (fun j =>
            (decryptChunkGo A iv (s + j) (pieces.getD j [])).getD [])).flatten,
         some (DecryptError.chunkOpenFailed (s + i))) := by
  intro s pieces
  induction pieces generalizing s with
  | nil => intro i hi; simp at hi
  | cons c rest ih =>
      intro i hi hfail hok
      cases i with
      | zero =>
          rw [openChunksFrom]
          rw [List.getD_cons_zero] at hfail
          rw [show s + 0 = s from rfl] at hfail
          rw [hfail]
          simp
      | succ k =>
          have h0 : decryptChunkGo A iv s c ≠ none := by
            have := hok 0 (Nat.succ_pos k)
            simpa using this
          obtain ⟨p, hp⟩ := Option.ne_none_iff_exists.mp h0
          rw [openChunksFrom, ← hp]
          have hk : k < rest.length := by simpa using hi
          have hfail2 : decryptChunkGo A iv (s + 1 + k) (rest.getD k []) = none := by
            rw [show s + 1 + k = s + (k + 1) by omega]
            simpa using hfail
          have hok2 : ∀ j, j < k →
              decryptChunkGo A iv (s + 1 + j) (rest.getD j []) ≠ none := by
            intro j hj
            rw [show s + 1 + j = s + (j + 1) by omega]
            have := hok (j + 1) (by omega)
            simpa using this
          rw [ih (s + 1) k hk hfail2 hok2]
          have hheads : (decryptChunkGo A iv (s + 0) ((c :: rest).getD 0 [])).getD [] =
              p := by
            rw [List.getD_cons_zero, show s + 0 = s from rfl, ← hp]
            rfl
          have hmaps : (List.range k).map
                ((fun j => (decryptChunkGo A iv (s + j)
                  ((c :: rest).getD j [])).getD []) ∘ Nat.succ) =
              (List.range k).map (fun j =>
                (decryptChunkGo A iv (s + 1 + j) (rest.getD j [])).getD []) := by
            apply List.map_congr_left
            intro j _
            simp only [Function.comp]
            rw [show s + Nat.succ j = s + 1 + j by omega]
            rfl
          have hB : ((List.range (k + 1)).map (fun j =>
              (decryptChunkGo A iv (s + j) ((c :: rest).getD j [])).getD [])).flatten =
              p ++ ((List.range k).map (fun j =>
                (decryptChunkGo A iv (s + 1 + j) (rest.getD j [])).getD [])).flatten := by
            rw [List.range_succ_eq_map, List.map_cons, List.map_map,
              List.flatten_cons, hheads, hmaps]
          rw [hB, show s + (k + 1) = s + 1 + k by omega]

/-- C4.  Tamper detection: if chunk `i` of the encrypted stream is the first
whose AEAD open (tag verification) fails, the decrypt reader emits exactly
the plaintexts of the chunks before `i` (already-emitted bytes are not
retracted), emits no byte of chunk `i`, and terminates the stream with the
chunk-`i` decryption error; the reader stores that error, so all subsequent
reads return it. -/
theorem c4_tamper_detection (A : AEAD) (iv : List Nat) (m : ChunkManifest)
    (hiv : decryptReaderBaseIV m = Except.ok iv) (enc : List Nat) (i : Nat)
    (hi : i < (chunksOf (m.chunkSize + tagSize) enc).length)
    (hfail : decryptChunkGo A iv i
      ((chunksOf (m.chunkSize + tagSize) enc).getD i []) = none)
    (hok : ∀ j, j < i → decryptChunkGo A iv j
      ((chunksOf (m.chunkSize + tagSize) enc).getD j []) ≠ none) :
    decryptStream A m enc = Except.ok
      (((List.range i).map (fun j =>
          (decryptChunkGo A iv j
            ((chunksOf (m.chunkSize + tagSize) enc).getD j [])).getD [])).flatten,
       some (DecryptError.chunkOpenFailed i)) := by
  rw [decryptStream, hiv]
  have h := openChunksFrom_first_fail A iv 0 (chunksOf (m.chunkSize + tagSize) enc)
    i hi (by simpa using hfail) (by intro j hj; simpa using hok j hj)
  simp only [Nat.zero_add] at h
  show Except.ok (openChunksFrom A iv 0 (chunksOf (m.chunkSize + tagSize) enc)) = _
  rw [h]

/-- Witness for C4: a two-piece stream whose first piece is a genuine sealed
chunk and whose second piece fails the toy AEAD tag check. -/
theorem c4_tamper_detection_witness :
    decryptReaderBaseIV ⟨1, 4, 2, encodeBase64 ivW⟩ = Except.ok ivW ∧
    (1 < (chunksOf (4 + tagSize)
        (encryptChunkGo toyAEAD ivW 0 [1, 2, 3, 4] ++ List.replicate 20 5)).length) ∧
    decryptStream toyAEAD ⟨1, 4, 2, encodeBase64 ivW⟩
        (encryptChunkGo toyAEAD ivW 0 [1, 2, 3, 4] ++ List.replicate 20 5) =
      Except.ok
        (((List.range 1).map (fun j =>
            (decryptChunkGo toyAEAD ivW j
              ((chunksOf (4 + tagSize)
                (encryptChunkGo toyAEAD ivW 0 [1, 2, 3, 4] ++
                  List.replicate 20 5)).getD j [])).getD [])).flatten,
         some (DecryptError.chunkOpenFailed 1)) :=
  ⟨by rfl, by decide,
    c4_tamper_detection toyAEAD ivW ⟨1, 4, 2, encodeBase64 ivW⟩ (by rfl)
      (encryptChunkGo toyAEAD ivW 0 [1, 2, 3, 4] ++ List.replicate 20 5) 1
      (by decide) (by decide) (by decide)⟩


/-! ## Range planner claims -/

/-- C5, counterexample: with chunk size 1 and chunk count 1, the plaintext
range `[5, 5]` yields start chunk 0, not `floor(5/1) = 5` as the claim
states - `calculateChunkRangeFromPlaintext` clamps the start chunk to
`chunk_count - 1` exactly as it clamps the end chunk. -/
theorem c5_planner_counterexample :
    (calculateChunkRangeFromPlaintext 5 5 1 1).1 = 0 ∧ (5 : Int) / 1 = 5 := by
  constructor
  · rfl
  · decide

/-- C5, amended: for `0 ≤ a ≤ b`, chunk size `C ≥ 1` and chunk count
`cc ≥ 1`, the planner returns `first_chunk = min(floor(a/C), cc-1)` (the
start chunk is clamped exactly like the end chunk),
`last_chunk = min(floor(b/C), cc-1)`, the in-chunk offsets `a mod C` and
`b mod C`, and the inclusive encrypted byte range
`[first_chunk*(C+16), (last_chunk+1)*(C+16) - 1]`. -/
theorem c5_planner_arithmetic (a b C cc : Int) (ha : 0 ≤ a) (hab : a ≤ b)
    (hC : 1 ≤ C) (hcc : 1 ≤ cc) :
    calculateChunkRangeFromPlaintext a b C cc =
      (min (a / C) (cc - 1), min (b / C) (cc - 1), a % C, b % C) ∧
    calculateEncryptedByteRange (min (a / C) (cc - 1)) (min (b / C) (cc - 1)) C =
      (min (a / C) (cc - 1) * (C + (tagSize : Int)),
       (min (b / C) (cc - 1) + 1) * (C + (tagSize : Int)) - 1) := by
  have hb0 : (0 : Int) ≤ b := le_trans ha hab
  have hCpos : (0 : Int) < C := by omega
  have hda : 0 ≤ a / C := Int.ediv_nonneg ha (by omega)
  have hdb : 0 ≤ b / C := Int.ediv_nonneg hb0 (by omega)
  have hdadb : a / C ≤ b / C := Int.ediv_le_ediv hCpos hab
  have hmin0 : (0 : Int) ≤ min (a / C) (cc - 1) := le_min hda (by omega)
  have hminle : min (a / C) (cc - 1) ≤ min (b / C) (cc - 1) :=
    min_le_min hdadb (le_refl _)
  constructor
  · rw [calculateChunkRangeFromPlaintext, if_neg (by omega : ¬(C ≤ 0 ∨ cc ≤ 0))]
    simp only [Int.tdiv_eq_ediv ha (by omega : (0 : Int) ≤ C),
      Int.tdiv_eq_ediv hb0 (by omega : (0 : Int) ≤ C),
      Int.tmod_eq_emod ha (by omega : (0 : Int) ≤ C),
      Int.tmod_eq_emod hb0 (by omega : (0 : Int) ≤ C)]
    split_ifs with h1 h2 h2 <;>
      (simp only [Prod.mk.injEq, and_true]; exact ⟨by omega, by omega⟩)
  · rw [calculateEncryptedByteRange, if_neg (by omega :
      ¬(C ≤ 0 ∨ min (a / C) (cc - 1) < 0 ∨
        min (b / C) (cc - 1) < min (a / C) (cc - 1)))]

/-- Witness for the amended C5 at `a = 5`, `b = 5`, `C = 1`, `cc = 1`:
both chunks clamp to 0 and the encrypted byte range is `[0, 16]`. -/
theorem c5_planner_arithmetic_witness :
    (0 : Int) ≤ 5 ∧ (5 : Int) ≤ 5 ∧ (1 : Int) ≤ 1 ∧ (1 : Int) ≤ 1 ∧
    calculateChunkRangeFromPlaintext 5 5 1 1 =
      (min ((5 : Int) / 1) ((1 : Int) - 1), min ((5 : Int) / 1) ((1 : Int) - 1),
       (5 : Int) % 1, (5 : Int) % 1) ∧
    calculateEncryptedByteRange (min ((5 : Int) / 1) ((1 : Int) - 1))
        (min ((5 : Int) / 1) ((1 : Int) - 1)) 1 =
      (min ((5 : Int) / 1) ((1 : Int) - 1) * (1 + (tagSize : Int)),
       (min ((5 : Int) / 1) ((1 : Int) - 1) + 1) * (1 + (tagSize : Int)) - 1) := by
  have h := c5_planner_arithmetic 5 5 1 1 (by norm_num) (by norm_num) (by norm_num)
    (by norm_num)
  exact ⟨by norm_num, by norm_num, by norm_num, by norm_num, h.1, h.2⟩

/-- C7.  Range-planning input validation (modelled from the spec, see
`decryptRangePlan`): a request with a negative `plaintext_start` or
`plaintext_end`, or with `plaintext_start > plaintext_end`, fails with
`KindInvalidRange` and produces no chunk span or encrypted byte range. -/
theorem c7_range_validation (m : ChunkManifest) (ps pe : Int)
    (h : ps < 0 ∨ pe < 0 ∨ ps > pe) :
    decryptRangePlan m ps pe = Except.error RangeError.invalidRange := by
  rw [decryptRangePlan]
  rcases h with h | h | h
  · rw [if_pos (Or.inl h)]
  · rw [if_pos (Or.inr h)]
  · by_cases hneg : ps < 0 ∨ pe < 0
    · rw [if_pos hneg]
    · rw [if_neg hneg, if_pos h]

/-- Witness for C7 at the sample manifest and range `(-1, 5)`. -/
theorem c7_range_validation_witness :
    ((-1 : Int) < 0 ∨ (5 : Int) < 0 ∨ (-1 : Int) > 5) ∧
    decryptRangePlan ⟨1, 65536, 10, encodeBase64 ivW⟩ (-1) 5 =
      Except.error RangeError.invalidRange :=
  ⟨Or.inl (by norm_num),
    c7_range_validation ⟨1, 65536, 10, encodeBase64 ivW⟩ (-1) 5
      (Or.inl (by norm_num))⟩


/-! ## Truncation and suffix decryption -/

theorem chunkShape_take {α : Type _} {K : Nat} (hK : 0 < K) :
    ∀ (pieces : List (List α)), ChunkShape K pieces →
      ∀ k, ChunkShape K (pieces.take k) := by
  intro pieces
  induction pieces with
  | nil => intro _ k; cases k <;> trivial
  | cons p rest ih =>
      intro hs k
      cases k with
      | zero => trivial
      | succ j =>
          cases rest with
          | nil =>
              have hp : p ≠ [] ∧ p.length ≤ K := hs
              simp only [List.take_succ_cons, List.take_nil]
              exact hp
          | cons q t =>
              have hp : p.length = K ∧ ChunkShape K (q :: t) := hs
              rw [List.take_succ_cons]
              cases htk : List.take j (q :: t) with
              | nil =>
                  refine ⟨?_, by omega⟩
                  intro hnil
                  rw [hnil] at hp
                  simp at hp
                  omega
              | cons w ws =>
                  have := ih hp.2 j
                  rw [htk] at this
                  exact ⟨hp.1, this⟩

theorem chunkShape_drop {α : Type _} {K : Nat} :
    ∀ (pieces : List (List α)), ChunkShape K pieces →
      ∀ k, ChunkShape K (pieces.drop k) := by
  intro pieces
  induction pieces with
  | nil => intro _ k; cases k <;> trivial
  | cons p rest ih =>
      intro hs k
      cases k with
      | zero => exact hs
      | succ j =>
          rw [List.drop_succ_cons]
          cases rest with
          | nil => cases j <;> trivial
          | cons q t =>
              have hp : p.length = K ∧ ChunkShape K (q :: t) := hs
              exact ih hp.2 j

theorem sealChunksFrom_take (A : AEAD) (iv : List Nat) :
    ∀ (s k : Nat) (pieces : List (List Nat)),
      (sealChunksFrom A iv s pieces).take k =
        sealChunksFrom A iv s (pieces.take k) := by
  intro s k pieces
  induction pieces generalizing s k with
  | nil => simp [sealChunksFrom]
  | cons p rest ih =>
      cases k with
      | zero => rfl
      | succ j =>
          rw [sealChunksFrom, List.take_succ_cons, List.take_succ_cons,
            sealChunksFrom, ih (s + 1) j]

/-- C8, counterexample to the claim as stated: a stream holding only the
first sealed chunk of an object whose manifest records two chunks decrypts
without any error - the boundary-truncated stream is not detected (no
truncation kind exists in the code; `ErrUnexpectedEOF` is treated like EOF
and the chunk count is never consulted). -/
theorem c8_truncation_counterexample :
    decryptStream toyAEAD ⟨1, 4, 2, encodeBase64 ivW⟩
        (encryptChunkGo toyAEAD ivW 0 [1, 2, 3, 4]) =
      Except.ok ([1, 2, 3, 4], none) := rfl

/-- C8, amended: the decoder reads the stream in `chunk_size + tag_size`
pieces (a short, non-empty final piece still becomes a chunk job, so the
final chunk is read as `remainder + tag_size` bytes); a stream truncated at
a chunk boundary after `k` whole encrypted chunks is not detected -
decryption succeeds silently with the first `k*C` plaintext bytes, whatever
chunk count the manifest records (the decoder never consults it).  A
mid-chunk truncation leaves a short final piece whose AEAD open fails, which
surfaces as that chunk decryption (authentication) error, not as a distinct
truncation kind (see `c4_tamper_detection`). -/
theorem c8_truncation (A : AEAD) (hSeal : A.SealLen) (hOpen : A.OpenSeal)
    (iv : List Nat) (hivb : ∀ x ∈ iv, x < 256) (C : Nat) (hC : 0 < C)
    (cc : Nat) (P : List Nat) (k : Nat) (hk : k ≤ (chunksOf C P).length) :
    chunksOf (C + tagSize) ((sealChunksFrom A iv 0 (chunksOf C P)).flatten) =
      sealChunksFrom A iv 0 (chunksOf C P) ∧
    decryptStream A ⟨1, C, cc, encodeBase64 iv⟩
        (((sealChunksFrom A iv 0 (chunksOf C P)).flatten).take
          (k * (C + tagSize))) =
      Except.ok (P.take (k * C), none) := by
  have hK : 0 < C + tagSize := by simp [tagSize]
  have hshape := chunksOf_shape C hC P
  have hne := chunkShape_ne_nil hC _ hshape
  have hsealshape := sealChunksFrom_shape A hSeal iv C hC 0 _ hshape
  have hslen := sealChunksFrom_length A iv 0 (chunksOf C P)
  refine ⟨chunksOf_flatten_of_shape _ hK _ hsealshape, ?_⟩
  have htake_enc : ((sealChunksFrom A iv 0 (chunksOf C P)).flatten).take
      (k * (C + tagSize)) =
      ((sealChunksFrom A iv 0 (chunksOf C P)).take k).flatten := by
    rcases Nat.lt_or_ge k (chunksOf C P).length with h | h
    · exact chunkShape_flatten_take _ hsealshape k (by rw [hslen]; exact h)
    · have hkn : k = (chunksOf C P).length := le_antisymm hk h
      rw [List.take_of_length_le (le_trans (chunkShape_flatten_length_le _ hsealshape)
          (by rw [hslen, hkn])),
        List.take_of_length_le (by rw [hslen, hkn])]
  have htake_p : ((chunksOf C P).take k).flatten = P.take (k * C) := by
    rcases Nat.lt_or_ge k (chunksOf C P).length with h | h
    · rw [← chunkShape_flatten_take _ hshape k h, chunksOf_flatten C hC P]
    · have hkn : k = (chunksOf C P).length := le_antisymm hk h
      have hPC : P.length ≤ k * C := by
        have h1 := chunkShape_flatten_length_le _ hshape
        rw [chunksOf_flatten C hC P] at h1
        rw [hkn]
        exact h1
      rw [List.take_of_length_le (by rw [hkn]), chunksOf_flatten C hC P,
        List.take_of_length_le hPC]
  rw [htake_enc, sealChunksFrom_take A iv 0 k _]
  have hdec : decryptReaderBaseIV ⟨1, C, cc, encodeBase64 iv⟩ = Except.ok iv := by
    rw [decryptReaderBaseIV]
    have hb : (⟨1, C, cc, encodeBase64 iv⟩ : ChunkManifest).baseIV =
        encodeBase64 iv := rfl
    rw [hb, decodeBase64_encodeBase64 iv hivb]
  rw [decryptStream, hdec]
  show Except.ok (openChunksFrom A iv 0 (chunksOf (C + tagSize)
      ((sealChunksFrom A iv 0 ((chunksOf C P).take k)).flatten))) = _
  have hts : ChunkShape (C + tagSize)
      (sealChunksFrom A iv 0 ((chunksOf C P).take k)) :=
    sealChunksFrom_shape A hSeal iv C hC 0 _ (chunkShape_take hC _ hshape k)
  rw [chunksOf_flatten_of_shape _ hK _ hts,
    openChunksFrom_seal A hSeal hOpen iv 0 _
      (fun ch hch => hne ch (List.mem_of_mem_take hch)),
    htake_p]

/-- Witness for the amended C8: a 6-byte plaintext in 4-byte chunks (two
chunks), stream truncated after the first whole encrypted chunk, manifest
chunk count 7; decryption yields the first 4 plaintext bytes and no error. -/
theorem c8_truncation_witness :
    toyAEAD.SealLen ∧ toyAEAD.OpenSeal ∧ (∀ x ∈ ivW, x < 256) ∧ (0 : Nat) < 4 ∧
      1 ≤ (chunksOf 4 [1, 2, 3, 4, 5, 6]).length ∧
      (chunksOf (4 + tagSize)
          ((sealChunksFrom toyAEAD ivW 0 (chunksOf 4 [1, 2, 3, 4, 5, 6])).flatten) =
        sealChunksFrom toyAEAD ivW 0 (chunksOf 4 [1, 2, 3, 4, 5, 6])) ∧
      (decryptStream toyAEAD ⟨1, 4, 7, encodeBase64 ivW⟩
          (((sealChunksFrom toyAEAD ivW 0
            (chunksOf 4 [1, 2, 3, 4, 5, 6])).flatten).take (1 * (4 + tagSize))) =
        Except.ok (([1, 2, 3, 4, 5, 6] : List Nat).take (1 * 4), none)) := by
  have h := c8_truncation toyAEAD toyAEAD_sealLen toyAEAD_openSeal ivW (by decide)
    4 (by decide) 7 [1, 2, 3, 4, 5, 6] 1 (by decide)
  exact ⟨toyAEAD_sealLen, toyAEAD_openSeal, by decide, by decide, by decide,
    h.1, h.2⟩


/-- C9 (modelled from the spec, see `decryptStreamFrom`): the decoder's
`starting_chunk_index` parameter derives every nonce from the absolute chunk
index `s, s+1, …`, not a relative one, so decrypting the encrypted stream's
suffix that begins at chunk `s` yields exactly the plaintext from byte
`s*C` on - a non-zero range read decrypts correctly without reading the
prefix. -/
theorem c9_starting_chunk_index (A : AEAD) (hSeal : A.SealLen)
    (hOpen : A.OpenSeal) (iv : List Nat) (C : Nat) (hC : 0 < C)
    (P : List Nat) (s : Nat) (hs : s ≤ (chunksOf C P).length) :
    decryptStreamFrom A iv C s
        ((encryptStream A iv C P).drop (s * (C + tagSize))) =
      (P.drop (s * C), none) := by
  have hK : 0 < C + tagSize := by simp [tagSize]
  have hshape := chunksOf_shape C hC P
  have hne := chunkShape_ne_nil hC _ hshape
  have hsealshape := sealChunksFrom_shape A hSeal iv C hC 0 _ hshape
  have hslen := sealChunksFrom_length A iv 0 (chunksOf C P)
  have hdrop_enc : (encryptStream A iv C P).drop (s * (C + tagSize)) =
      (sealChunksFrom A iv s ((chunksOf C P).drop s)).flatten := by
    rw [encryptStream, chunkShape_flatten_drop _ hsealshape s (by rw [hslen]; exact hs),
      sealChunksFrom_drop A iv 0 s, Nat.zero_add]
  have hdrop_p : ((chunksOf C P).drop s).flatten = P.drop (s * C) := by
    rw [← chunkShape_flatten_drop _ hshape s hs, chunksOf_flatten C hC P]
  rw [decryptStreamFrom, hdrop_enc,
    chunksOf_flatten_of_shape _ hK _
      (sealChunksFrom_shape A hSeal iv C hC s _ (chunkShape_drop _ hshape s)),
    openChunksFrom_seal A hSeal hOpen iv s _
      (fun ch hch => hne ch (List.mem_of_mem_drop hch)),
    hdrop_p]

/-- Witness for C9: 6 bytes in 4-byte chunks, suffix starting at chunk 1
decrypts to the last 2 plaintext bytes. -/
theorem c9_starting_chunk_index_witness :
    toyAEAD.SealLen ∧ toyAEAD.OpenSeal ∧ (0 : Nat) < 4 ∧
      1 ≤ (chunksOf 4 [1, 2, 3, 4, 5, 6]).length ∧
      decryptStreamFrom toyAEAD ivW 4 1
          ((encryptStream toyAEAD ivW 4 [1, 2, 3, 4, 5, 6]).drop
            (1 * (4 + tagSize))) =
        (([1, 2, 3, 4, 5, 6] : List Nat).drop (1 * 4), none) :=
  ⟨toyAEAD_sealLen, toyAEAD_openSeal, by decide, by decide,
    c9_starting_chunk_index toyAEAD toyAEAD_sealLen toyAEAD_openSeal ivW 4
      (by decide) [1, 2, 3, 4, 5, 6] 1 (by decide)⟩


/-- C10, evaluated at the failing input (scenario S1: `"hello world"`,
configured chunk size 65536): the manifest built by
`newChunkedEncryptReaderWithContext` carries `ChunkCount = 0` - the Go
struct literal omits the field, and `chunkedEncryptReader.Read` only
increments it as encrypted chunks are consumed - while the object's true
chunk count, which the shared manifest value reaches only after the stream
has been fully consumed, is `ceil(11/65536) = 1`.  The engine serializes the
manifest into the object's metadata when the reader is created, before the
stream is consumed (the repository's own range-reader test patches the
stored chunk count for exactly this reason), so the stored manifest records
0, violating the `chunk_count ≥ 1` invariant the claim states. -/
theorem c10_manifest_chunk_count_bug :
    (mkEncryptManifest ivW 65536).chunkCount = 0 ∧
      encryptFinalChunkCount (clampChunkSize 65536) helloWorldBytes = 1 :=
  ⟨rfl, rfl⟩


/-! ## HTTP Range parsing lemmas -/

theorem digitCharFacts : ∀ d, d < 10 →
    (Char.ofNat (48 + d)).isDigit = true ∧ Char.ofNat (48 + d) ≠ '-' ∧
      Char.ofNat (48 + d) ≠ '+' ∧ (Char.ofNat (48 + d)).toNat - 48 = d := by
  decide

theorem natDec_ne_nil (n : Nat) : natDec n ≠ [] := by
  rw [natDec]
  split_ifs with h
  · simp
  · intro hc
    simp only [List.map_eq_nil_iff, List.reverse_eq_nil_iff] at hc
    exact (Nat.digits_ne_nil_iff_ne_zero.mpr h) hc

theorem natDec_mem (n : Nat) : ∀ c ∈ natDec n,
    c.isDigit = true ∧ c ≠ '-' ∧ c ≠ '+' := by
  intro c hc
  rw [natDec] at hc
  split_ifs at hc with h
  · simp only [List.mem_singleton] at hc
    subst hc
    refine ⟨by decide, by decide, by decide⟩
  · simp only [List.mem_map, List.mem_reverse] at hc
    obtain ⟨d, hd, rfl⟩ := hc
    have hd10 : d < 10 := Nat.digits_lt_base (by norm_num) hd
    exact ⟨(digitCharFacts d hd10).1, (digitCharFacts d hd10).2.1,
      (digitCharFacts d hd10).2.2.1⟩

theorem takeWhile_eq_self {α : Type _} (p : α → Bool) :
    ∀ l : List α, (∀ x ∈ l, p x = true) → l.takeWhile p = l := by
  intro l h
  induction l with
  | nil => rfl
  | cons x xs ih =>
      rw [List.takeWhile_cons, if_pos (h x (by simp))]
      rw [ih (fun y hy => h y (by simp [hy]))]

theorem foldl_digits_rev : ∀ l : List Nat, (∀ d ∈ l, d < 10) → ∀ acc : Nat,
    (l.reverse.map (fun d => Char.ofNat (48 + d))).foldl
        (fun a c => a * 10 + digitVal c) acc =
      acc * 10 ^ l.length + Nat.ofDigits 10 l := by
  intro l
  induction l with
  | nil => intro _ acc; simp [Nat.ofDigits_nil]
  | cons d t ih =>
      intro hmem acc
      rw [List.reverse_cons, List.map_append, List.foldl_append,
        ih (fun x hx => hmem x (by simp [hx])) acc]
      simp only [List.map_cons, List.map_nil, List.foldl_cons, List.foldl_nil]
      have hd : digitVal (Char.ofNat (48 + d)) = d := by
        rw [digitVal]
        exact (digitCharFacts d (hmem d (by simp))).2.2.2
      rw [hd, Nat.ofDigits_cons, List.length_cons, pow_succ]
      ring

theorem scanDigits_natDec (n : Nat) : scanDigits (natDec n) = Except.ok n := by
  rcases eq_or_ne n 0 with rfl | h
  · rfl
  · rw [scanDigits,
      takeWhile_eq_self _ (natDec n) (fun c hc => (natDec_mem n c hc).1),
      if_neg (natDec_ne_nil n)]
    rw [natDec, if_neg h,
      foldl_digits_rev (Nat.digits 10 n)
        (fun d hd => Nat.digits_lt_base (by norm_num) hd) 0,
      Nat.ofDigits_digits, Nat.zero_mul, Nat.zero_add]

theorem goScanInt_digits (l : List Char) (hd : ∀ c ∈ l, c.isDigit = true) :
    goScanInt l = (scanDigits l).map (fun n => (n : Int)) := by
  rw [goScanInt.eq_def]
  split
  · exfalso
    have := hd '-' (by simp)
    simp at this
  · exfalso
    have := hd '+' (by simp)
    simp at this
  · rfl

theorem goScanInt_natDec (n : Nat) : goScanInt (natDec n) = Except.ok (n : Int) := by
  rw [goScanInt_digits (natDec n) (fun c hc => (natDec_mem n c hc).1),
    scanDigits_natDec]
  rfl

theorem splitOnChar_no_sep (sep : Char) :
    ∀ l : List Char, (∀ c ∈ l, c ≠ sep) → splitOnChar sep l = [l] := by
  intro l h
  induction l with
  | nil => rfl
  | cons x xs ih =>
      rw [splitOnChar, if_neg (h x (by simp)),
        ih (fun c hc => h c (by simp [hc]))]

theorem splitOnChar_append (sep : Char) :
    ∀ l1 l2 : List Char, (∀ c ∈ l1, c ≠ sep) →
      splitOnChar sep (l1 ++ sep :: l2) = l1 :: splitOnChar sep l2 := by
  intro l1 l2 h
  induction l1 with
  | nil =>
      rw [List.nil_append, splitOnChar, if_pos rfl]
  | cons x xs ih =>
      rw [List.cons_append, splitOnChar, if_neg (h x (by simp)),
        ih (fun c hc => h c (by simp [hc]))]


theorem parse_header_cons (c0 : Char) (rest : List Char) (T : Int) :
    ParseHTTPRangeHeader ("bytes=".toList ++ c0 :: rest) T =
      match computeHTTPRange c0 rest T with
      | Except.error e => Except.error e
      | Except.ok (start, endv) =>
          if T > 0 ∧ (start < 0 ∨ start ≥ T ∨ endv < start ∨ endv ≥ T) then
            Except.error ()
          else Except.ok (start, endv) := by
  rw [ParseHTTPRangeHeader]
  rw [if_neg ?hno]
  case hno =>
    intro hcon
    rcases hcon with h | h
    · rw [List.length_append] at h
      have h6 : ("bytes=".toList).length = 6 := rfl
      rw [h6] at h
      simp at h
    · exact h (List.take_left' rfl)
  have hd : List.drop 6 ("bytes=".toList ++ c0 :: rest) = c0 :: rest := rfl
  rw [hd]

theorem parse_header_ok (c0 : Char) (rest : List Char) (T s e : Int)
    (hc : computeHTTPRange c0 rest T = Except.ok (s, e))
    (hval : ¬(T > 0 ∧ (s < 0 ∨ s ≥ T ∨ e < s ∨ e ≥ T))) :
    ParseHTTPRangeHeader ("bytes=".toList ++ c0 :: rest) T = Except.ok (s, e) := by
  rw [parse_header_cons, hc]
  show (if T > 0 ∧ (s < 0 ∨ s ≥ T ∨ e < s ∨ e ≥ T) then Except.error ()
    else Except.ok (s, e)) = Except.ok (s, e)
  rw [if_neg hval]

theorem parse_header_invalid (c0 : Char) (rest : List Char) (T s e : Int)
    (hc : computeHTTPRange c0 rest T = Except.ok (s, e))
    (hval : T > 0 ∧ (s < 0 ∨ s ≥ T ∨ e < s ∨ e ≥ T)) :
    ParseHTTPRangeHeader ("bytes=".toList ++ c0 :: rest) T = Except.error () := by
  rw [parse_header_cons, hc]
  show (if T > 0 ∧ (s < 0 ∨ s ≥ T ∨ e < s ∨ e ≥ T) then Except.error ()
    else Except.ok (s, e)) = Except.error ()
  rw [if_pos hval]

theorem parse_header_err (c0 : Char) (rest : List Char) (T : Int) (e : Unit)
    (hc : computeHTTPRange c0 rest T = Except.error e) :
    ParseHTTPRangeHeader ("bytes=".toList ++ c0 :: rest) T = Except.error e := by
  rw [parse_header_cons, hc]

/-- C6.  HTTP Range parsing with a known total size `T > 0`:
`bytes=a-b` yields `(a, b)` when `0 ≤ a ≤ b < T` and is rejected otherwise
(any result violating `0 ≤ start ≤ end < T` is an error); `bytes=a-` yields
`(a, T-1)` when `a < T`; `bytes=-N` (with `N ≥ 1`) yields
`(max(T-N, 0), T-1)` - so `bytes=-100` with `T = 1000` gives `(900, 999)`;
and a suffix or open-ended form with unknown total size (`T ≤ 0`) is
rejected. -/
theorem c6_http_range_parsing (T : Int) (hT : 0 < T) (a b N : Nat) :
    (((a : Int) ≤ (b : Int) ∧ (b : Int) < T) →
      ParseHTTPRangeHeader ("bytes=".toList ++ (natDec a ++ '-' :: natDec b)) T =
        Except.ok ((a : Int), (b : Int))) ∧
    (¬((a : Int) ≤ (b : Int) ∧ (b : Int) < T) →
      ParseHTTPRangeHeader ("bytes=".toList ++ (natDec a ++ '-' :: natDec b)) T =
        Except.error ()) ∧
    ((a : Int) < T →
      ParseHTTPRangeHeader ("bytes=".toList ++ (natDec a ++ ['-'])) T =
        Except.ok ((a : Int), T - 1)) ∧
    (1 ≤ N →
      ParseHTTPRangeHeader ("bytes=".toList ++ '-' :: natDec N) T =
        Except.ok (max (T - (N : Int)) 0, T - 1)) ∧
    (∀ T2 : Int, T2 ≤ 0 →
      ParseHTTPRangeHeader ("bytes=".toList ++ '-' :: natDec N) T2 =
          Except.error () ∧
        ParseHTTPRangeHeader ("bytes=".toList ++ (natDec a ++ ['-'])) T2 =
          Except.error ()) := by
  obtain ⟨c0, rest0, hsplit⟩ := List.exists_cons_of_ne_nil (natDec_ne_nil a)
  have hc0mem : c0 ∈ natDec a := by rw [hsplit]; exact List.mem_cons_self c0 rest0
  have hc0ne : c0 ≠ '-' := (natDec_mem a c0 hc0mem).2.1
  have hone : natDec a ++ '-' :: natDec b = c0 :: (rest0 ++ '-' :: natDec b) := by
    rw [hsplit]
    rfl
  have hopen : natDec a ++ ['-'] = c0 :: (rest0 ++ ['-']) := by
    rw [hsplit]
    rfl
  have hparts : splitOnChar '-' (c0 :: (rest0 ++ '-' :: natDec b)) =
      [natDec a, natDec b] := by
    rw [show c0 :: (rest0 ++ '-' :: natDec b) = (c0 :: rest0) ++ '-' :: natDec b
        from rfl,
      ← hsplit, splitOnChar_append '-' _ _ (fun c hc => (natDec_mem a c hc).2.1),
      splitOnChar_no_sep '-' _ (fun c hc => (natDec_mem b c hc).2.1)]
  have hpartsOpen : splitOnChar '-' (c0 :: (rest0 ++ ['-'])) =
      [natDec a, []] := by
    rw [show c0 :: (rest0 ++ ['-']) = (c0 :: rest0) ++ '-' :: ([] : List Char)
        from rfl,
      ← hsplit, splitOnChar_append '-' _ _ (fun c hc => (natDec_mem a c hc).2.1)]
    rfl
  have hcomp1 : computeHTTPRange c0 (rest0 ++ '-' :: natDec b) T =
      Except.ok ((a : Int), (b : Int)) := by
    simp only [computeHTTPRange, if_neg hc0ne, hparts, List.length_cons,
      List.length_nil, List.getD_cons_zero, List.getD_cons_succ,
      goScanInt_natDec, if_neg (natDec_ne_nil b)]
    norm_num
  have hcompOpenT : ∀ T3 : Int, computeHTTPRange c0 (rest0 ++ ['-']) T3 =
      if T3 ≤ 0 then Except.error () else Except.ok ((a : Int), T3 - 1) := by
    intro T3
    simp only [computeHTTPRange, if_neg hc0ne, hpartsOpen, List.length_cons,
      List.length_nil, List.getD_cons_zero, List.getD_cons_succ,
      goScanInt_natDec]
    norm_num
  have hcompSufT : ∀ T3 : Int, computeHTTPRange '-' (natDec N) T3 =
      if T3 ≤ 0 then Except.error ()
      else Except.ok (if T3 - (N : Int) < 0 then 0 else T3 - (N : Int), T3 - 1) := by
    intro T3
    simp only [computeHTTPRange, goScanInt_natDec]
    norm_num
  refine ⟨?_, ?_, ?_, ?_, ?_⟩
  · intro hv
    rw [hone]
    exact parse_header_ok _ _ _ _ _ hcomp1 (by omega)
  · intro hv
    rw [hone]
    exact parse_header_invalid _ _ _ _ _ hcomp1 (by omega)
  · intro hv
    rw [hopen]
    refine parse_header_ok _ _ _ _ _ ?_ (by omega)
    rw [hcompOpenT T, if_neg (show ¬T ≤ 0 by omega)]
  · intro hv
    refine parse_header_ok _ _ _ _ _ ?_ (by omega)
    rw [hcompSufT T, if_neg (show ¬T ≤ 0 by omega)]
    have hmax : (if T - (N : Int) < 0 then 0 else T - (N : Int)) =
        max (T - (N : Int)) 0 := by
      split_ifs with h <;> omega
    rw [hmax]
  · intro T2 hT2
    constructor
    · refine parse_header_err _ _ _ _ ?_
      rw [hcompSufT T2, if_pos hT2]
    · rw [hopen]
      refine parse_header_err _ _ _ _ ?_
      rw [hcompOpenT T2, if_pos hT2]

/-- Witness for C6, scenario S6: total size 1000, `bytes=0-100`,
`bytes=100-`, and `bytes=-100`, the last giving `(900, 999)`. -/
theorem c6_http_range_parsing_witness :
    (0 : Int) < 1000 ∧
    ParseHTTPRangeHeader ("bytes=".toList ++ (natDec 0 ++ '-' :: natDec 100)) 1000 =
      Except.ok (0, 100) ∧
    ParseHTTPRangeHeader ("bytes=".toList ++ (natDec 100 ++ ['-'])) 1000 =
      Except.ok (100, 999) ∧
    ParseHTTPRangeHeader ("bytes=".toList ++ '-' :: natDec 100) 1000 =
      Except.ok (900, 999) := by
  have h1 := (c6_http_range_parsing 1000 (by norm_num) 0 100 100).1 (by norm_num)
  have h2 := (c6_http_range_parsing 1000 (by norm_num) 100 100 100).2.2.1
    (by norm_num)
  have h3 := (c6_http_range_parsing 1000 (by norm_num) 0 100 100).2.2.2.1
    (by norm_num)
  refine ⟨by norm_num, ?_, ?_, ?_⟩
  · simpa using h1
  · simpa using h2
  · have hm : max ((1000 : Int) - ((100 : Nat) : Int)) 0 = 900 := by norm_num
    rw [hm] at h3
    simpa using h3

end S3EG
